import Mathlib

/-!
Verification development for the Yjs realtime persistence engine
(`src/persistence.ts`, `src/persistence/projections/ProjectionManager.ts`,
the CIA projection plugin and the version actions module).

The CRDT library (Yjs) is treated as a trusted black box, exactly as the
specification prescribes: an update or a document state is modelled as a
finite set of primitive operations, `applyUpdate` is set union (the
conflict-free, idempotent, commutative merge), `mergeUpdates` is the union
of a batch, and `encodeStateAsUpdate` returns the state itself.  All
database tables are modelled as in-memory lists/options carried in a
`Db` record; asynchronous storage writes take an explicit success flag so
that failure injection is expressible, and the suspension point of the
flush write takes the list of updates that arrive while the write is in
flight.
-/

namespace YjsRealtime

/-- A CRDT update or document state: a finite set of primitive operations. -/
abbrev Bytes := Finset Nat

/-- Y.applyUpdate: conflict-free merge of an update into a document state. -/
def applyUpdate (doc u : Bytes) : Bytes := doc ∪ u

/-- Y.mergeUpdates: merge a batch of updates into a single blob. -/
def mergeUpdates (us : List Bytes) : Bytes := us.foldl (· ∪ ·) ∅

/-- Y.encodeStateAsUpdate: full-state encoding of a document. -/
def encodeStateAsUpdate (doc : Bytes) : Bytes := doc

/-- Origin identifier for updates applied from the persistence layer
(`persistence.ts` line 32). -/
def YJS_ORIGIN_PERSISTENCE : String := "persistence"

/-- Delay constant for auto version creation (`persistence.ts` line 29). -/
def AUTO_VERSION_INTERVAL_MS : Nat := 60000

/-- In-memory metadata for one document (`persistence.ts` lines 45-69).
Timers and the mutex are not part of the state space: the mutex only
serializes the operations we already model as atomic functions, and timers
only choose when the operations below fire. -/
structure DocumentMetadata where
  pendingUpdates : List Bytes
  updatesSinceLastCompaction : Nat
  lastVersionCreatedAt : Nat
  listenerAttached : Bool
deriving DecidableEq

/-- One `DocumentUpdate` row (the UpdateLogEntry of the spec). -/
structure UpdateRow where
  id : Nat
  update : Bytes
deriving DecidableEq

/-- The `DocumentSnapshot` row for the document. -/
structure SnapshotRow where
  snapshot : Bytes
  updatedAt : Nat
deriving DecidableEq

/-- One `DocumentVersion` row (the VersionSnapshot of the spec). -/
structure VersionRow where
  id : Nat
  snapshot : Bytes
  label : Option String
  createdAt : Nat
deriving DecidableEq

/-- The relational store, restricted to the rows of a single document.
`nextUpdateId` and `nextVersionId` model the autoincrement id sequences. -/
structure Db where
  documentUpdates : List UpdateRow
  documentSnapshot : Option SnapshotRow
  documentVersions : List VersionRow
  nextUpdateId : Nat
  nextVersionId : Nat
deriving DecidableEq

/-- Full persistence-relevant state of one document: the live Yjs document,
the in-memory metadata registry entry (none when the document id was never
registered), and the store.  `stateAtLastCompaction` is an auxiliary
history variable, not present in the source: it records the encoded state
at the last successful compaction (the empty state before the first one)
and is only ever written in the compaction success branch.  It exists so
that replay equivalence can be stated. -/
structure PState where
  doc : Bytes
  meta : Option DocumentMetadata
  db : Db
  stateAtLastCompaction : Bytes
deriving DecidableEq

/-- The empty store. -/
def emptyDb : Db :=
  { documentUpdates := []
    documentSnapshot := none
    documentVersions := []
    nextUpdateId := 1
    nextVersionId := 1 }

/-- Fresh metadata as built by `getOrCreateMeta` (`persistence.ts` 81-100). -/
def freshMeta : DocumentMetadata :=
  { pendingUpdates := []
    updatesSinceLastCompaction := 0
    lastVersionCreatedAt := 0
    listenerAttached := false }

/-- Initial state: empty document, no registered metadata, empty store. -/
def initialState : PState :=
  { doc := ∅, meta := none, db := emptyDb, stateAtLastCompaction := ∅ }

/-- mergePendingUpdates (`persistence.ts` 110-115): null when the buffer is
empty, otherwise the merged blob. -/
def mergePendingUpdates (meta : DocumentMetadata) : Option Bytes :=
  if meta.pendingUpdates = [] then none
  else some (mergeUpdates meta.pendingUpdates)

/-- The per-document update listener attached by `attachDocument`
(`persistence.ts` 420-428): an update whose origin is the reserved
persistence tag is ignored; any other update is pushed onto the pending
buffer. -/
def listenerOnUpdate (meta : DocumentMetadata) (u : Bytes) (origin : String) :
    DocumentMetadata :=
  if origin = YJS_ORIGIN_PERSISTENCE then meta
  else { meta with pendingUpdates := meta.pendingUpdates ++ [u] }

/-- Apply one update to the live document with a given origin tag.  The
document merges the update; the update event then reaches the listener
(when one is attached), which filters on the origin. -/
def applyUpdateWithOrigin (s : PState) (u : Bytes) (origin : String) : PState :=
  { s with
    doc := applyUpdate s.doc u
    meta := s.meta.map fun m =>
      if m.listenerAttached then listenerOnUpdate m u origin else m }

/-- attachDocument (`persistence.ts` 407-432): create-or-get the metadata
and attach the update listener at most once. -/
def attachDocument (s : PState) : PState :=
  match s.meta with
  | some meta => { s with meta := some { meta with listenerAttached := true } }
  | none => { s with meta := some { freshMeta with listenerAttached := true } }

/-- flushPendingUpdates (`persistence.ts` 167-208).  `late` is the list of
updates that arrive (listener pushes onto the same pending array) while the
`persistMergedUpdate` write is awaited; `writeOk` injects storage failure.
On success the source executes `meta.pendingUpdates = []` — a wholesale
clear of the array, including any late arrivals — and increments the
compaction counter.  On failure the buffer (with the late arrivals) is
kept and the error is only logged. -/
def flushPendingUpdates (s : PState) (late : List Bytes) (writeOk : Bool) :
    PState :=
  match s.meta with
  | none => s
  | some meta =>
    if meta.pendingUpdates = [] then
      s
    else
      let merged := mergeUpdates meta.pendingUpdates
      let docAfter := late.foldl applyUpdate s.doc
      let pendingDuring := meta.pendingUpdates ++ late
      if writeOk then
        { s with
          doc := docAfter
          db := { s.db with
                  documentUpdates :=
                    s.db.documentUpdates ++ [⟨s.db.nextUpdateId, merged⟩]
                  nextUpdateId := s.db.nextUpdateId + 1 }
          meta := some { meta with
                         pendingUpdates := []
                         updatesSinceLastCompaction :=
                           meta.updatesSinceLastCompaction + 1 } }
      else
        { s with
          doc := docAfter
          meta := some { meta with pendingUpdates := pendingDuring } }

/-- Retention cap for version snapshots (`persistence.ts` 369,
`versionActions` MAX_VERSIONS_PER_DOCUMENT). -/
def MAX_VERSIONS : Nat := 50

/-- enforceVersionLimit (`persistence.ts` 368-395, identical logic in the
version actions module): when the count exceeds the cap, fetch the oldest
`count - cap` rows ordered by `createdAt` ascending and delete exactly
those ids. -/
def enforceVersionLimit (rows : List VersionRow) : List VersionRow :=
  let count := rows.length
  if count ≤ MAX_VERSIONS then rows
  else
    let versionsToDelete :=
      ((rows.insertionSort fun a b => a.createdAt ≤ b.createdAt).take
          (count - MAX_VERSIONS)).map (·.id)
    rows.filter fun r => !(versionsToDelete.contains r.id)

/-- createVersion (version actions module, lines 58-91): verify the
document exists, insert the new row (a falsy label is stored as null),
then enforce the retention cap.  Returns none exactly when the document
row is missing. -/
def createVersion (docExists : Bool) (rows : List VersionRow) (nextId : Nat)
    (now : Nat) (snapshot : Bytes) (label : Option String) :
    Option (List VersionRow × Nat) :=
  if docExists then
    let storedLabel := match label with
      | some l => if l = "" then none else some l
      | none => none
    some (enforceVersionLimit (rows ++ [⟨nextId, snapshot, storedLabel, now⟩]),
          nextId + 1)
  else none

/-- The mutex-guarded body of compactDocument (`persistence.ts` 296-360),
entered once metadata is known: early return on a zero counter; otherwise
encode the full current state and run the snapshot-upsert/log-delete
transaction.  `txOk` injects transaction failure: atomically both effects
happen or neither; only on success are the counter reset and the
auto-versioning step (create an Auto-save version row when the interval
has elapsed, then prune) reached; on failure the error is only logged and
the state is left untouched. -/
def compactWithMeta (s1 : PState) (meta : DocumentMetadata) (now : Nat)
    (txOk : Bool) : PState :=
  if meta.updatesSinceLastCompaction = 0 then s1
  else if txOk then
    if AUTO_VERSION_INTERVAL_MS ≤ now - meta.lastVersionCreatedAt then
      { doc := s1.doc
        meta := some { meta with
                       updatesSinceLastCompaction := 0
                       lastVersionCreatedAt := now }
        db := { s1.db with
                documentSnapshot := some ⟨encodeStateAsUpdate s1.doc, now⟩
                documentUpdates := []
                documentVersions :=
                  enforceVersionLimit (s1.db.documentVersions ++
                    [⟨s1.db.nextVersionId, encodeStateAsUpdate s1.doc,
                      some "Auto-save", now⟩])
                nextVersionId := s1.db.nextVersionId + 1 }
        stateAtLastCompaction := encodeStateAsUpdate s1.doc }
    else
      { doc := s1.doc
        meta := some { meta with updatesSinceLastCompaction := 0 }
        db := { s1.db with
                documentSnapshot := some ⟨encodeStateAsUpdate s1.doc, now⟩
                documentUpdates := [] }
        stateAtLastCompaction := encodeStateAsUpdate s1.doc }
  else s1

/-- The post-flush part of compactDocument: with no registered metadata the
source skips the early return (the guard `meta && ...` is false) and then
dereferences `meta!.mutex` on `undefined`, so the promise rejects with a
TypeError, modelled as the error branch. -/
def compactBody (s1 : PState) (now : Nat) (txOk : Bool) :
    Except String PState :=
  match s1.meta with
  | none =>
    .error "TypeError: Cannot read properties of undefined (reading mutex)"
  | some meta => .ok (compactWithMeta s1 meta now txOk)

/-- compactDocument (`persistence.ts` 285-361): flush everything pending
first, then run the compaction body on the post-flush state. -/
def compactDocument (s : PState) (now : Nat) (flushOk txOk : Bool) :
    Except String PState :=
  compactBody (flushPendingUpdates s [] flushOk) now txOk

/-- The part of saveAndCompact after its own flush: if metadata exists the
counter is forced to 1 so the compaction cannot early-return (close
projections run afterwards, outside this state); with no metadata the
source still calls compactDocument, whose rejection is not caught. -/
def saveBody (s1 : PState) (now : Nat) (flushOk txOk : Bool) :
    Except String PState :=
  match s1.meta with
  | some meta =>
    compactDocument
      { s1 with meta := some { meta with updatesSinceLastCompaction := 1 } }
      now flushOk txOk
  | none => compactDocument s1 now flushOk txOk

/-- saveAndCompact (`persistence.ts` 441-468): flush, then force-compact. -/
def saveAndCompact (s : PState) (now : Nat) (flushOk txOk : Bool) :
    Except String PState :=
  saveBody (flushPendingUpdates s [] flushOk) now flushOk txOk

/-- loadDocFromDb (`persistence.ts` 489-516): apply the snapshot row first
when present, then apply every update row ordered by id ascending, every
apply tagged with the persistence origin. -/
def loadDocFromDb (s : PState) : PState :=
  let s1 :=
    match s.db.documentSnapshot with
    | some row => applyUpdateWithOrigin s row.snapshot YJS_ORIGIN_PERSISTENCE
    | none => s
  (s.db.documentUpdates.insertionSort fun a b => a.id ≤ b.id).foldl
    (fun acc row => applyUpdateWithOrigin acc row.update YJS_ORIGIN_PERSISTENCE)
    s1

/-- Projection trigger events (`persistence/projections/types.ts`). -/
inductive ProjectionTrigger
  | flush
  | compact
  | close
deriving DecidableEq

/-- One row of the `documents` table seen by projections: the title plus
the three CIA sidecar columns. -/
structure DocumentRecord where
  title : String
  confidentiality : Nat
  integrity : Nat
  availability : Nat
deriving DecidableEq

/-- One `ProjectionState` row for this document, keyed by projection name. -/
structure ProjectionStateRow where
  name : String
  version : Nat
  lastAppliedAt : Nat
  lastError : Option String
deriving DecidableEq

/-- The slice of the relational store that projections touch: the
`documents` table (as an association list from document id) and the
`ProjectionState` rows of the current document. -/
structure Store where
  documents : List (String × DocumentRecord)
  projectionStates : List ProjectionStateRow
deriving DecidableEq

/-- Context handed to projections (`types.ts`): the document id, the JSON
of the `cia` map of the live document, the trigger and the timestamp. -/
structure ProjectionContext where
  docId : String
  ciaMap : List (String × String)
  trigger : ProjectionTrigger
  now : Nat
deriving DecidableEq

/-- A projection plugin (`types.ts`): name, version, the triggers it
responds to, and the two fallible callbacks. -/
structure Projection where
  name : String
  version : Nat
  triggers : List ProjectionTrigger
  shouldRun : ProjectionContext → Except String Bool
  apply : Store → ProjectionContext → Except String Store

/-- Manager state for one document: the store plus the set of dirty
projection names (a JS Set, modelled as a duplicate-free list). -/
structure ManagerState where
  store : Store
  dirty : List String
deriving DecidableEq

/-- register (`ProjectionManager.ts` 36-44): a projection whose name is
already registered is skipped, otherwise it is pushed. -/
def register (ps : List Projection) (p : Projection) : List Projection :=
  if ps.any fun q => q.name == p.name then ps else ps ++ [p]

/-- Fold `register` over a list of registration calls, starting from the
empty manager. -/
def registerAll (ps : List Projection) : List Projection :=
  ps.foldl register []

/-- markDirty (`ProjectionManager.ts` 85-92): add the name to the dirty
set. -/
def markDirty (dirty : List String) (name : String) : List String :=
  if dirty.contains name then dirty else dirty ++ [name]

/-- updateProjectionState (`ProjectionManager.ts` 195-226): upsert the
`ProjectionState` row keyed by the projection name, recording version,
timestamp and the error field. -/
def updateProjectionState (store : Store) (p : Projection) (now : Nat)
    (err : Option String) : Store :=
  if store.projectionStates.any fun r => r.name == p.name then
    { store with projectionStates := store.projectionStates.map fun r =>
        if r.name == p.name then
          { r with version := p.version, lastAppliedAt := now, lastError := err }
        else r }
  else
    { store with projectionStates :=
        store.projectionStates ++ [⟨p.name, p.version, now, err⟩] }

/-- Find the `ProjectionState` row for a projection name. -/
def lookupState (store : Store) (name : String) : Option ProjectionStateRow :=
  store.projectionStates.find? fun r => r.name == name

/-- The body of the `runProjections` loop (`ProjectionManager.ts` 152-189)
for one projection: skip when the trigger is not declared; skip when the
trigger is flush and the projection is not dirty; otherwise call
`shouldRun` and `apply` inside a try/catch — an error from either is
recorded in the `ProjectionState` row and the dirty flag stays; a
successful apply records a null error and clears the dirty flag; a false
`shouldRun` is a silent skip. -/
def runProjectionStep (ctx : ProjectionContext) (st : ManagerState)
    (p : Projection) : ManagerState :=
  if !(p.triggers.contains ctx.trigger) then st
  else if ctx.trigger == .flush && !(st.dirty.contains p.name) then st
  else
    match p.shouldRun ctx with
    | .error e => { st with store := updateProjectionState st.store p ctx.now (some e) }
    | .ok false => st
    | .ok true =>
      match p.apply st.store ctx with
      | .error e => { st with store := updateProjectionState st.store p ctx.now (some e) }
      | .ok store1 =>
        { store := updateProjectionState store1 p ctx.now none
          dirty := st.dirty.erase p.name }

/-- runProjections (`ProjectionManager.ts` 143-190): run the loop body over
every registered projection in order.  Total: no projection failure
escapes to the flush or compaction that triggered the run. -/
def runProjections (ctx : ProjectionContext) (ps : List Projection)
    (st : ManagerState) : ManagerState :=
  ps.foldl (runProjectionStep ctx) st

/-- parseCiaLevel (`cia-projection.ts` 31-44): Low 1, Medium 2, High 3,
Critical 3, anything else including an absent value 0. -/
def parseCiaLevel (value : Option String) : Nat :=
  match value with
  | some "Low" => 1
  | some "Medium" => 2
  | some "High" => 3
  | some "Critical" => 3
  | _ => 0

/-- Lookup in the JSON of the `cia` map. -/
def ciaGet (m : List (String × String)) (k : String) : Option String :=
  (m.find? fun kv => kv.1 == k).map (·.2)

/-- The apply callback of the CIA projection (`cia-projection.ts` 86-106):
parse the three levels from the `cia` map and issue
`prisma.document.update` on the row of the document — a Prisma `update`,
which throws a record-not-found error when the `documents` table has no
row with this id, and otherwise rewrites exactly the three sidecar
columns. -/
def ciaApply (store : Store) (ctx : ProjectionContext) : Except String Store :=
  let confidentiality := parseCiaLevel (ciaGet ctx.ciaMap "confidentiality")
  let integrity := parseCiaLevel (ciaGet ctx.ciaMap "integrity")
  let availability := parseCiaLevel (ciaGet ctx.ciaMap "availability")
  if store.documents.any fun kv => kv.1 == ctx.docId then
    .ok { store with documents := store.documents.map fun kv =>
            if kv.1 == ctx.docId then
              (kv.1, { kv.2 with
                       confidentiality := confidentiality
                       integrity := integrity
                       availability := availability })
            else kv }
  else
    .error "Record to update not found"

/-- The CIA projection plugin (`cia-projection.ts` 55-107): named cia,
version 1, responding to all three triggers, `shouldRun` constantly true. -/
def ciaProjection : Projection :=
  { name := "cia"
    version := 1
    triggers := [.flush, .compact, .close]
    shouldRun := fun _ => .ok true
    apply := ciaApply }

/-- One observable transition of the persistence engine for a single
document: attach, a tagged update application, a debounced flush (with
injected in-flight arrivals and write outcome), a successful compaction, a
successful close-time save, or a reload from the store. -/
inductive Step : PState → PState → Prop
  | attach (s : PState) : Step s (attachDocument s)
  | applyU (s : PState) (u : Bytes) (origin : String) :
      Step s (applyUpdateWithOrigin s u origin)
  | flush (s : PState) (late : List Bytes) (ok : Bool) :
      Step s (flushPendingUpdates s late ok)
  | compact (s : PState) (now : Nat) (flushOk txOk : Bool) (s' : PState)
      (h : compactDocument s now flushOk txOk = .ok s') : Step s s'
  | save (s : PState) (now : Nat) (flushOk txOk : Bool) (s' : PState)
      (h : saveAndCompact s now flushOk txOk = .ok s') : Step s s'
  | load (s : PState) : Step s (loadDocFromDb s)

/-- Reachable states of the engine, from the initial state. -/
inductive Reach : PState → Prop
  | init : Reach initialState
  | step {s s' : PState} : Reach s → Step s s' → Reach s'

/-- The pending buffer of a state (empty when no metadata is registered). -/
def pendingOf (s : PState) : List Bytes :=
  match s.meta with
  | some m => m.pendingUpdates
  | none => []

theorem foldl_union (us : List Bytes) (d : Bytes) :
    us.foldl (· ∪ ·) d = d ∪ mergeUpdates us := by
  induction us generalizing d with
  | nil => simp [mergeUpdates]
  | cons u us ih =>
    show us.foldl (· ∪ ·) (d ∪ u) = d ∪ mergeUpdates (u :: us)
    have h1 : mergeUpdates (u :: us) = u ∪ mergeUpdates us := by
      show us.foldl (· ∪ ·) (∅ ∪ u) = u ∪ mergeUpdates us
      rw [Finset.empty_union, ih u]
    rw [ih (d ∪ u), h1, Finset.union_assoc]

theorem listenerOnUpdate_persistence (m : DocumentMetadata) (u : Bytes) :
    listenerOnUpdate m u YJS_ORIGIN_PERSISTENCE = m := by
  simp [listenerOnUpdate]

theorem applyUpdateWithOrigin_persistence_meta (s : PState) (u : Bytes) :
    (applyUpdateWithOrigin s u YJS_ORIGIN_PERSISTENCE).meta = s.meta := by
  unfold applyUpdateWithOrigin
  cases s.meta with
  | none => rfl
  | some m => simp [listenerOnUpdate_persistence]

theorem applyUpdateWithOrigin_db (s : PState) (u : Bytes) (origin : String) :
    (applyUpdateWithOrigin s u origin).db = s.db ∧
    (applyUpdateWithOrigin s u origin).stateAtLastCompaction
      = s.stateAtLastCompaction := by
  constructor <;> rfl

theorem load_foldl_meta (rows : List UpdateRow) (s : PState) :
    (rows.foldl
      (fun acc row => applyUpdateWithOrigin acc row.update YJS_ORIGIN_PERSISTENCE)
      s).meta = s.meta := by
  induction rows generalizing s with
  | nil => rfl
  | cons r rows ih =>
    show (rows.foldl _ (applyUpdateWithOrigin s r.update YJS_ORIGIN_PERSISTENCE)).meta = s.meta
    rw [ih, applyUpdateWithOrigin_persistence_meta]

theorem load_foldl_db (rows : List UpdateRow) (s : PState) :
    (rows.foldl
      (fun acc row => applyUpdateWithOrigin acc row.update YJS_ORIGIN_PERSISTENCE)
      s).db = s.db ∧
    (rows.foldl
      (fun acc row => applyUpdateWithOrigin acc row.update YJS_ORIGIN_PERSISTENCE)
      s).stateAtLastCompaction = s.stateAtLastCompaction := by
  induction rows generalizing s with
  | nil => exact ⟨rfl, rfl⟩
  | cons r rows ih =>
    exact ⟨(ih _).1, (ih _).2⟩

theorem load_foldl_doc (rows : List UpdateRow) (s : PState) :
    (rows.foldl
      (fun acc row => applyUpdateWithOrigin acc row.update YJS_ORIGIN_PERSISTENCE)
      s).doc = s.doc ∪ mergeUpdates (rows.map (·.update)) := by
  induction rows generalizing s with
  | nil => simp [mergeUpdates]
  | cons r rows ih =>
    show (rows.foldl _ (applyUpdateWithOrigin s r.update YJS_ORIGIN_PERSISTENCE)).doc = _
    rw [ih]
    show (s.doc ∪ r.update) ∪ mergeUpdates (rows.map (·.update)) = _
    have h1 : mergeUpdates (r.update :: rows.map (·.update))
        = r.update ∪ mergeUpdates (rows.map (·.update)) := by
      show (rows.map (·.update)).foldl (· ∪ ·) (∅ ∪ r.update) = _
      rw [Finset.empty_union, foldl_union]
    rw [List.map_cons, h1, Finset.union_assoc]

/-- C4.  Every update applied by `loadDocFromDb` is tagged with the
reserved persistence origin, the per-document update listener ignores any
update carrying that tag, and consequently a reload leaves the registered
metadata — in particular the pending-update buffer — exactly as it was:
replayed persisted data is never re-enqueued (no self-feedback loop). -/
theorem loadDocFromDb_persistence_origin_no_feedback (s : PState) :
    (∀ (m : DocumentMetadata) (u : Bytes),
        listenerOnUpdate m u YJS_ORIGIN_PERSISTENCE = m) ∧
    (loadDocFromDb s).meta = s.meta ∧
    pendingOf (loadDocFromDb s) = pendingOf s := by
  have hmeta : (loadDocFromDb s).meta = s.meta := by
    unfold loadDocFromDb
    cases hsnap : s.db.documentSnapshot with
    | none => simp only [hsnap]; exact load_foldl_meta _ _
    | some row =>
      simp only [hsnap]
      rw [load_foldl_meta, applyUpdateWithOrigin_persistence_meta]
  exact ⟨fun m u => listenerOnUpdate_persistence m u, hmeta, by
    unfold pendingOf; rw [hmeta]⟩

/-- C1, evaluation of the code at the failing input.  With two updates in
the buffer at capture time, the writer does merge exactly those two
entries into a single blob and appends it as one UpdateLogEntry; but when
a third update arrives while the write is in flight, the write-success
path executes a wholesale `meta.pendingUpdates = []`, so the post-flush
buffer is empty instead of holding exactly the late-arriving update — the
in-flight update is lost, contradicting the claim and the specification
(spec section 4.3 step 4 and the No-loss-during-I/O property). -/
theorem flushPendingUpdates_wholesale_clear_drops_inflight :
    (flushPendingUpdates
        { doc := {1, 2}
          meta := some { pendingUpdates := [{1}, {2}]
                         updatesSinceLastCompaction := 0
                         lastVersionCreatedAt := 0
                         listenerAttached := true }
          db := emptyDb
          stateAtLastCompaction := ∅ } [{3}] true).db.documentUpdates.map
        (·.update) = [{1, 2}] ∧
    pendingOf (flushPendingUpdates
        { doc := {1, 2}
          meta := some { pendingUpdates := [{1}, {2}]
                         updatesSinceLastCompaction := 0
                         lastVersionCreatedAt := 0
                         listenerAttached := true }
          db := emptyDb
          stateAtLastCompaction := ∅ } [{3}] true) = [] ∧
    pendingOf (flushPendingUpdates
        { doc := {1, 2}
          meta := some { pendingUpdates := [{1}, {2}]
                         updatesSinceLastCompaction := 0
                         lastVersionCreatedAt := 0
                         listenerAttached := true }
          db := emptyDb
          stateAtLastCompaction := ∅ } [{3}] true) ≠ [{3}] := by
  refine ⟨?_, rfl, ?_⟩
  · decide
  · decide

/-- C9, evaluation of the code at the failing input.  When no in-memory
metadata is registered for the document id, `compactDocument` skips the
early return (the guard `meta && ...` is false for a missing entry) and
then dereferences `meta!.mutex` on `undefined`: the promise rejects with a
TypeError instead of completing, and `saveAndCompact`, whose no-metadata
branch awaits that call without a catch, rejects as well — contradicting
the claim (and spec section 7) that failures inside the persistence core
are logged and never rethrown. -/
theorem compactDocument_missing_meta_throws :
    compactDocument initialState 0 true true =
      .error "TypeError: Cannot read properties of undefined (reading mutex)" ∧
    saveAndCompact initialState 0 true true =
      .error "TypeError: Cannot read properties of undefined (reading mutex)" := by
  exact ⟨rfl, rfl⟩

theorem flushPendingUpdates_empty_pending (s : PState) (meta : DocumentMetadata)
    (late : List Bytes) (ok : Bool) (hm : s.meta = some meta)
    (hp : meta.pendingUpdates = []) :
    flushPendingUpdates s late ok = s := by
  unfold flushPendingUpdates
  rw [hm]
  simp [hp]

/-- C2.  With the pending buffer already drained (so the internal flush of
step 1 is the identity) and a nonzero rows-since-compaction counter, the
compaction transaction is atomic: on transaction success the update log is
left empty and the snapshot row holds exactly the full current encoded
state, with the counter reset to zero; on transaction failure the whole
state — old snapshot, full old log and, in particular, the counter — is
exactly as before, so the next trigger retries. -/
theorem compactDocument_transaction_atomicity (s : PState)
    (meta : DocumentMetadata) (now : Nat) (hm : s.meta = some meta)
    (hpend : meta.pendingUpdates = [])
    (hc : meta.updatesSinceLastCompaction ≠ 0) :
    (∃ s', compactDocument s now true true = .ok s' ∧
       s'.db.documentUpdates = [] ∧
       s'.db.documentSnapshot = some ⟨encodeStateAsUpdate s.doc, now⟩ ∧
       ∃ m', s'.meta = some m' ∧ m'.updatesSinceLastCompaction = 0) ∧
    compactDocument s now true false = .ok s := by
  have hfl : ∀ ok, flushPendingUpdates s [] ok = s := fun ok =>
    flushPendingUpdates_empty_pending s meta [] ok hm hpend
  have hbody : ∀ txOk, compactDocument s now true txOk
      = .ok (compactWithMeta s meta now txOk) := by
    intro txOk
    unfold compactDocument
    rw [hfl true]
    unfold compactBody
    rw [hm]
  constructor
  · refine ⟨compactWithMeta s meta now true, hbody true, ?_⟩
    unfold compactWithMeta
    rw [if_neg hc, if_pos rfl]
    by_cases hv :
        AUTO_VERSION_INTERVAL_MS ≤ now - meta.lastVersionCreatedAt
    · rw [if_pos hv]
      exact ⟨rfl, rfl, _, rfl, rfl⟩
    · rw [if_neg hv]
      exact ⟨rfl, rfl, _, rfl, rfl⟩
  · rw [hbody false]
    have hfalse : compactWithMeta s meta now false = s := by
      unfold compactWithMeta
      rw [if_neg hc, if_neg Bool.false_ne_true]
    rw [hfalse]

/-- Witness for C2 at a concrete state: pending buffer empty, counter 1. -/
theorem compactDocument_transaction_atomicity_witness :
    (∃ s', compactDocument
        { doc := {1}
          meta := some { pendingUpdates := []
                         updatesSinceLastCompaction := 1
                         lastVersionCreatedAt := 0
                         listenerAttached := true }
          db := emptyDb
          stateAtLastCompaction := ∅ } 5 true true = .ok s' ∧
       s'.db.documentUpdates = [] ∧
       s'.db.documentSnapshot = some ⟨encodeStateAsUpdate {1}, 5⟩ ∧
       ∃ m', s'.meta = some m' ∧ m'.updatesSinceLastCompaction = 0) ∧
    compactDocument
        { doc := {1}
          meta := some { pendingUpdates := []
                         updatesSinceLastCompaction := 1
                         lastVersionCreatedAt := 0
                         listenerAttached := true }
          db := emptyDb
          stateAtLastCompaction := ∅ } 5 true false =
      .ok { doc := {1}
            meta := some { pendingUpdates := []
                           updatesSinceLastCompaction := 1
                           lastVersionCreatedAt := 0
                           listenerAttached := true }
            db := emptyDb
            stateAtLastCompaction := ∅ } :=
  compactDocument_transaction_atomicity _ _ 5 rfl rfl (by decide)

/-- The decoded snapshot column: the snapshot bytes when a row exists, the
empty state otherwise. -/
def snapshotBytes (db : Db) : Bytes :=
  match db.documentSnapshot with
  | some row => row.snapshot
  | none => ∅

/-- Store well-formedness: update-log ids strictly increase in insertion
order and stay below the autoincrement cursor. -/
def dbWellFormed (db : Db) : Prop :=
  List.Pairwise (· < ·) (db.documentUpdates.map (·.id)) ∧
  ∀ r ∈ db.documentUpdates, r.id < db.nextUpdateId

/-- System invariant: the store is well formed and the snapshot row decodes
to the state recorded at the last successful compaction. -/
def Inv (s : PState) : Prop :=
  dbWellFormed s.db ∧ snapshotBytes s.db = s.stateAtLastCompaction

theorem inv_initial : Inv initialState := by
  refine ⟨⟨List.Pairwise.nil, ?_⟩, rfl⟩
  intro r hr
  simp [initialState, emptyDb] at hr

theorem inv_flush (s : PState) (late : List Bytes) (ok : Bool) (h : Inv s) :
    Inv (flushPendingUpdates s late ok) := by
  unfold flushPendingUpdates
  cases hm : s.meta with
  | none => exact h
  | some meta =>
    by_cases hp : meta.pendingUpdates = []
    · simp only [if_pos hp]; exact h
    · simp only [if_neg hp]
      cases ok with
      | false =>
        rw [if_neg Bool.false_ne_true]
        exact h
      | true =>
        rw [if_pos rfl]
        obtain ⟨⟨h1, h2⟩, h3⟩ := h
        refine ⟨⟨?_, ?_⟩, h3⟩
        · rw [List.map_append]
          rw [List.pairwise_append]
          refine ⟨h1, by simp, ?_⟩
          intro a ha b hb
          simp only [List.map_cons, List.map_nil, List.mem_singleton] at hb
          subst hb
          obtain ⟨r, hr, rfl⟩ := List.mem_map.mp ha
          exact h2 r hr
        · intro r hr
          rcases List.mem_append.mp hr with h | h
          · exact Nat.lt_trans (h2 r h) (Nat.lt_succ_self _)
          · simp only [List.mem_singleton] at h
            subst h
            exact Nat.lt_succ_self _

theorem inv_applyUpdateWithOrigin (s : PState) (u : Bytes) (origin : String)
    (h : Inv s) : Inv (applyUpdateWithOrigin s u origin) := h

theorem inv_attach (s : PState) (h : Inv s) : Inv (attachDocument s) := by
  unfold attachDocument
  cases s.meta <;> exact h

theorem compactBody_some (s1 : PState) (meta : DocumentMetadata) (now : Nat)
    (txOk : Bool) (hm : s1.meta = some meta) :
    compactBody s1 now txOk = .ok (compactWithMeta s1 meta now txOk) := by
  unfold compactBody
  rw [hm]

theorem compactBody_none (s1 : PState) (now : Nat) (txOk : Bool)
    (hm : s1.meta = none) :
    compactBody s1 now txOk =
      .error "TypeError: Cannot read properties of undefined (reading mutex)" := by
  unfold compactBody
  rw [hm]

theorem inv_compactWithMeta (s1 : PState) (meta : DocumentMetadata)
    (now : Nat) (txOk : Bool) (hI1 : Inv s1) :
    Inv (compactWithMeta s1 meta now txOk) := by
  unfold compactWithMeta
  by_cases hc : meta.updatesSinceLastCompaction = 0
  · rw [if_pos hc]; exact hI1
  · rw [if_neg hc]
    cases txOk with
    | false =>
      rw [if_neg Bool.false_ne_true]
      exact hI1
    | true =>
      rw [if_pos rfl]
      by_cases hv : AUTO_VERSION_INTERVAL_MS ≤ now - meta.lastVersionCreatedAt
      · rw [if_pos hv]
        exact ⟨⟨List.Pairwise.nil, by intro r hr; simp at hr⟩, rfl⟩
      · rw [if_neg hv]
        exact ⟨⟨List.Pairwise.nil, by intro r hr; simp at hr⟩, rfl⟩

theorem inv_compact (s : PState) (now : Nat) (flushOk txOk : Bool)
    (s' : PState) (hI : Inv s)
    (h : compactDocument s now flushOk txOk = .ok s') : Inv s' := by
  have hI1 : Inv (flushPendingUpdates s [] flushOk) := inv_flush s [] flushOk hI
  unfold compactDocument at h
  cases hm : (flushPendingUpdates s [] flushOk).meta with
  | none =>
    rw [compactBody_none _ now txOk hm] at h
    exact absurd h (by simp)
  | some meta =>
    rw [compactBody_some _ meta now txOk hm] at h
    obtain rfl : s' = compactWithMeta (flushPendingUpdates s [] flushOk) meta now txOk :=
      (Except.ok.inj h).symm
    exact inv_compactWithMeta _ meta now txOk hI1

theorem inv_save (s : PState) (now : Nat) (flushOk txOk : Bool) (s' : PState)
    (hI : Inv s) (h : saveAndCompact s now flushOk txOk = .ok s') : Inv s' := by
  have hI1 : Inv (flushPendingUpdates s [] flushOk) := inv_flush s [] flushOk hI
  unfold saveAndCompact saveBody at h
  cases hm : (flushPendingUpdates s [] flushOk).meta with
  | none =>
    rw [hm] at h
    exact inv_compact _ now flushOk txOk s' hI1 h
  | some meta =>
    rw [hm] at h
    refine inv_compact
      { flushPendingUpdates s [] flushOk with
        meta := some { meta with updatesSinceLastCompaction := 1 } }
      now flushOk txOk s' ?_ h
    exact hI1

theorem loadDocFromDb_db (s : PState) :
    (loadDocFromDb s).db = s.db ∧
    (loadDocFromDb s).stateAtLastCompaction = s.stateAtLastCompaction := by
  unfold loadDocFromDb
  cases hsnap : s.db.documentSnapshot with
  | none =>
    simp only [hsnap]
    exact load_foldl_db _ _
  | some row =>
    simp only [hsnap]
    constructor
    · rw [(load_foldl_db _ _).1]; rfl
    · rw [(load_foldl_db _ _).2]; rfl

theorem inv_load (s : PState) (h : Inv s) : Inv (loadDocFromDb s) := by
  obtain ⟨h1, h2⟩ := h
  obtain ⟨hdb, hg⟩ := loadDocFromDb_db s
  refine ⟨?_, ?_⟩
  · rw [hdb]; exact h1
  · rw [hdb, hg]; exact h2

theorem reach_inv {s : PState} (h : Reach s) : Inv s := by
  induction h with
  | init => exact inv_initial
  | step _ hstep ih =>
    cases hstep with
    | attach => exact inv_attach _ ih
    | applyU u origin => exact inv_applyUpdateWithOrigin _ u origin ih
    | flush late ok => exact inv_flush _ late ok ih
    | compact now flushOk txOk _s2 h => exact inv_compact _ now flushOk txOk _ ih h
    | save now flushOk txOk _s2 h => exact inv_save _ now flushOk txOk _ ih h
    | load => exact inv_load _ ih

/-- C3.  For every reachable state, loading a fresh document from the
store — applying the snapshot row first (when present) and then every
update-log row in ascending id order, exactly as `loadDocFromDb` does —
reconstructs the state recorded at the last successful compaction merged
with every update logged since (the log rows present are precisely those
appended after that compaction, because a successful compaction clears
the log). -/
theorem loadDocFromDb_replay_equivalence (s : PState) (h : Reach s) :
    (loadDocFromDb
        { doc := ∅, meta := none, db := s.db, stateAtLastCompaction := ∅ }).doc
      = s.stateAtLastCompaction
          ∪ mergeUpdates (s.db.documentUpdates.map (·.update)) := by
  obtain ⟨⟨hpw, _⟩, hsnap⟩ := reach_inv h
  have hsorted : List.Sorted (fun a b : UpdateRow => a.id ≤ b.id)
      s.db.documentUpdates := by
    have hp := List.pairwise_map.mp hpw
    exact hp.imp fun hab => Nat.le_of_lt hab
  unfold loadDocFromDb
  cases hrow : s.db.documentSnapshot with
  | none =>
    simp only [hrow]
    rw [hsorted.insertionSort_eq, load_foldl_doc]
    have : s.stateAtLastCompaction = (∅ : Bytes) := by
      rw [← hsnap]; unfold snapshotBytes; rw [hrow]
    rw [this]
  | some row =>
    simp only [hrow]
    rw [hsorted.insertionSort_eq, load_foldl_doc]
    have : s.stateAtLastCompaction = row.snapshot := by
      rw [← hsnap]; unfold snapshotBytes; rw [hrow]
    rw [this]
    show (∅ ∪ row.snapshot) ∪ _ = _
    rw [Finset.empty_union]

/-- Witness for C3 on a concrete reachable trace: attach, one local edit,
one successful flush, one successful compaction, one more local edit and a
second successful flush; the reloaded state is the compacted state merged
with the update logged since. -/
theorem loadDocFromDb_replay_equivalence_witness :
    (loadDocFromDb
        { doc := ∅, meta := none
          db := (flushPendingUpdates
              (applyUpdateWithOrigin
                (flushPendingUpdates
                  (applyUpdateWithOrigin (attachDocument initialState) {1} "c")
                  [] true) {2} "c") [] true).db
          stateAtLastCompaction := ∅ }).doc
      = (flushPendingUpdates
            (applyUpdateWithOrigin
              (flushPendingUpdates
                (applyUpdateWithOrigin (attachDocument initialState) {1} "c")
                [] true) {2} "c") [] true).stateAtLastCompaction
          ∪ mergeUpdates (((flushPendingUpdates
              (applyUpdateWithOrigin
                (flushPendingUpdates
                  (applyUpdateWithOrigin (attachDocument initialState) {1} "c")
                  [] true) {2} "c") [] true).db.documentUpdates).map
              (·.update)) :=
  loadDocFromDb_replay_equivalence _
    (Reach.step
      (Reach.step
        (Reach.step
          (Reach.step (Reach.step Reach.init (Step.attach _))
            (Step.applyU _ {1} "c"))
          (Step.flush _ [] true))
        (Step.applyU _ {2} "c"))
      (Step.flush _ [] true))

theorem find?_map_update (rows : List ProjectionStateRow) (p : Projection)
    (now : Nat) (err : Option String)
    (h : (rows.any fun r => r.name == p.name) = true) :
    ((rows.map fun r => if r.name == p.name
        then { r with version := p.version, lastAppliedAt := now,
                      lastError := err }
        else r).find? fun r => r.name == p.name)
      = some ⟨p.name, p.version, now, err⟩ := by
  induction rows with
  | nil => simp at h
  | cons r rs ih =>
    by_cases hr : (r.name == p.name) = true
    · have hname : r.name = p.name := by simpa using hr
      simp only [List.map_cons]
      rw [if_pos hr]
      rw [List.find?_cons_of_pos]
      · cases r
        simp_all
      · simpa using hr
    · have hr' : (r.name == p.name) = false := by
        revert hr; cases (r.name == p.name) <;> simp
      have h' : (rs.any fun r => r.name == p.name) = true := by
        revert h; simp [List.any_cons, hr']
      simp only [List.map_cons]
      rw [if_neg hr]
      rw [List.find?_cons_of_neg]
      · exact ih h'
      · simp [hr']

theorem find?_append_new (rows : List ProjectionStateRow) (p : Projection)
    (now : Nat) (err : Option String)
    (h : (rows.any fun r => r.name == p.name) = false) :
    ((rows ++ [(⟨p.name, p.version, now, err⟩ : ProjectionStateRow)]).find?
        fun r => r.name == p.name)
      = some ⟨p.name, p.version, now, err⟩ := by
  induction rows with
  | nil => simp
  | cons r rs ih =>
    have hpair : (r.name == p.name) = false ∧
        (rs.any fun q => q.name == p.name) = false := by
      simpa [List.any_cons, Bool.or_eq_false_iff] using h
    rw [List.cons_append, List.find?_cons_of_neg]
    · exact ih hpair.2
    · simp [hpair.1]

theorem lookupState_updateProjectionState (store : Store) (p : Projection)
    (now : Nat) (err : Option String) :
    lookupState (updateProjectionState store p now err) p.name
      = some ⟨p.name, p.version, now, err⟩ := by
  unfold lookupState updateProjectionState
  by_cases hany : (store.projectionStates.any fun r => r.name == p.name) = true
  · rw [if_pos hany]
    exact find?_map_update _ p now err hany
  · have hany' : (store.projectionStates.any fun r => r.name == p.name) = false := by
      revert hany; cases (store.projectionStates.any fun r => r.name == p.name) <;> simp
    rw [if_neg hany]
    exact find?_append_new _ p now err hany'

/-- C5.  When a projection that is selected to run (its triggers include
the current trigger and, for a flush, it is dirty) throws from `shouldRun`
or from `apply`, the loop body catches the error: the only effect is the
`ProjectionState` upsert recording the message in `lastError`; the dirty
set is unchanged (so the projection retries on the next trigger); and the
run of the whole list continues with the remaining projections — the loop
body is a total function, so the flush or compaction that triggered the
run receives a manager state, never the error. -/
theorem runProjections_failure_isolated
    (ctx : ProjectionContext) (st : ManagerState) (p : Projection)
    (rest : List Projection) (e : String)
    (htrig : p.triggers.contains ctx.trigger = true)
    (hdirty : ctx.trigger = ProjectionTrigger.flush →
      st.dirty.contains p.name = true)
    (hfail : p.shouldRun ctx = .error e ∨
             (p.shouldRun ctx = .ok true ∧ p.apply st.store ctx = .error e)) :
    runProjectionStep ctx st p =
      { st with store := updateProjectionState st.store p ctx.now (some e) } ∧
    lookupState (runProjectionStep ctx st p).store p.name
      = some ⟨p.name, p.version, ctx.now, some e⟩ ∧
    (runProjectionStep ctx st p).dirty = st.dirty ∧
    runProjections ctx (p :: rest) st
      = runProjections ctx rest (runProjectionStep ctx st p) := by
  have hmem : ctx.trigger ∈ p.triggers := by simpa using htrig
  have hcond : ¬(ctx.trigger = ProjectionTrigger.flush ∧ p.name ∉ st.dirty) := by
    rintro ⟨htr, hnot⟩
    exact hnot (by simpa using hdirty htr)
  have hstep : runProjectionStep ctx st p =
      { st with store := updateProjectionState st.store p ctx.now (some e) } := by
    unfold runProjectionStep
    rcases hfail with hsr | ⟨hsr, happ⟩
    · simp [hmem, hcond, hsr]
    · simp [hmem, hcond, hsr, happ]
  refine ⟨hstep, ?_, ?_, rfl⟩
  · rw [hstep]
    exact lookupState_updateProjectionState st.store p ctx.now (some e)
  · rw [hstep]

/-- A concrete projection whose apply always throws, for the C5 witness. -/
def failingProjection : Projection :=
  { name := "failing"
    version := 1
    triggers := [.flush, .compact, .close]
    shouldRun := fun _ => .ok true
    apply := fun _ _ => .error "boom" }

/-- A store holding one document row, used by concrete witnesses. -/
def storeD : Store :=
  { documents := [("d", ⟨"t", 0, 0, 0⟩)], projectionStates := [] }

/-- Witness for C5: a compact-trigger run of the failing projection on a
concrete manager state, followed by the cia projection. -/
theorem runProjections_failure_isolated_witness :
    runProjectionStep ⟨"d", [], .compact, 7⟩ ⟨storeD, ["failing"]⟩
        failingProjection =
      { store := updateProjectionState storeD failingProjection 7 (some "boom")
        dirty := ["failing"] } ∧
    lookupState (runProjectionStep ⟨"d", [], .compact, 7⟩ ⟨storeD, ["failing"]⟩
        failingProjection).store "failing"
      = some ⟨"failing", 1, 7, some "boom"⟩ ∧
    (runProjectionStep ⟨"d", [], .compact, 7⟩ ⟨storeD, ["failing"]⟩
        failingProjection).dirty = ["failing"] ∧
    runProjections ⟨"d", [], .compact, 7⟩ [failingProjection, ciaProjection]
        ⟨storeD, ["failing"]⟩
      = runProjections ⟨"d", [], .compact, 7⟩ [ciaProjection]
          (runProjectionStep ⟨"d", [], .compact, 7⟩ ⟨storeD, ["failing"]⟩
            failingProjection) :=
  runProjections_failure_isolated ⟨"d", [], .compact, 7⟩ ⟨storeD, ["failing"]⟩
    failingProjection [ciaProjection] "boom" (by decide)
    (fun h => by cases h) (Or.inr ⟨rfl, rfl⟩)

/-- C8.  Trigger/dirty semantics of the run loop: on a flush trigger a
registered projection that is not marked dirty for the document is
skipped; on a compact or close trigger the projection runs regardless of
dirty state whenever its declared triggers include the trigger; and after
a successful apply the result records a null-error `ProjectionState` row
and the dirty flag of the projection is removed (the dirty set is
duplicate-free, so the projection is no longer marked dirty). -/
theorem runProjections_trigger_dirty_semantics (ctx : ProjectionContext)
    (st : ManagerState) (p : Projection) (store1 : Store) :
    (ctx.trigger = ProjectionTrigger.flush →
       st.dirty.contains p.name = false →
       runProjectionStep ctx st p = st) ∧
    ((ctx.trigger = ProjectionTrigger.compact ∨
        ctx.trigger = ProjectionTrigger.close) →
       p.triggers.contains ctx.trigger = true →
       p.shouldRun ctx = .ok true →
       p.apply st.store ctx = .ok store1 →
       runProjectionStep ctx st p =
         { store := updateProjectionState store1 p ctx.now none
           dirty := st.dirty.erase p.name }) ∧
    (p.triggers.contains ctx.trigger = true →
       (ctx.trigger = ProjectionTrigger.flush →
         st.dirty.contains p.name = true) →
       p.shouldRun ctx = .ok true →
       p.apply st.store ctx = .ok store1 →
       st.dirty.Nodup →
       (runProjectionStep ctx st p).dirty.contains p.name = false) := by
  refine ⟨?_, ?_, ?_⟩
  · intro htr hd
    unfold runProjectionStep
    by_cases hmem : ctx.trigger ∈ p.triggers
    · have hnd : p.name ∉ st.dirty := by
        intro hmem2
        rw [show st.dirty.contains p.name = true by simpa using hmem2] at hd
        exact absurd hd (by simp)
      simp [hmem, htr, hnd]
    · simp [hmem]
  · intro htr htrig hsr happ
    have hmem : ctx.trigger ∈ p.triggers := by simpa using htrig
    have hcond : ¬(ctx.trigger = ProjectionTrigger.flush ∧ p.name ∉ st.dirty) := by
      rintro ⟨hfl, _⟩
      rcases htr with h | h <;> rw [h] at hfl <;> exact ProjectionTrigger.noConfusion hfl
    unfold runProjectionStep
    simp [hmem, hcond, hsr, happ]
  · intro htrig hdirty hsr happ hnodup
    have hmem : ctx.trigger ∈ p.triggers := by simpa using htrig
    have hcond : ¬(ctx.trigger = ProjectionTrigger.flush ∧ p.name ∉ st.dirty) := by
      rintro ⟨htr, hnot⟩
      exact hnot (by simpa using hdirty htr)
    have hstep : runProjectionStep ctx st p =
        { store := updateProjectionState store1 p ctx.now none
          dirty := st.dirty.erase p.name } := by
      unfold runProjectionStep
      simp [hmem, hcond, hsr, happ]
    rw [hstep]
    have hne : p.name ∉ st.dirty.erase p.name := hnodup.not_mem_erase
    simpa using hne

/-- Witness for C8, applying the theorem at three concrete inputs: a flush
trigger with a clean dirty set skips the cia projection entirely; a
compact trigger with the same clean dirty set still runs it and rewrites
the document row; and a flush trigger with the projection dirty runs it
and clears the flag. -/
theorem runProjections_trigger_dirty_semantics_witness :
    runProjectionStep ⟨"d", [("confidentiality", "Low")], .flush, 3⟩
        ⟨storeD, []⟩ ciaProjection = ⟨storeD, []⟩ ∧
    runProjectionStep ⟨"d", [("confidentiality", "Low")], .compact, 3⟩
        ⟨storeD, []⟩ ciaProjection =
      { store := updateProjectionState
          ⟨[("d", ⟨"t", 1, 0, 0⟩)], []⟩ ciaProjection 3 none
        dirty := List.erase [] ciaProjection.name } ∧
    (runProjectionStep ⟨"d", [("confidentiality", "Low")], .flush, 3⟩
        ⟨storeD, ["cia"]⟩ ciaProjection).dirty.contains
        ciaProjection.name = false :=
  ⟨(runProjections_trigger_dirty_semantics
      ⟨"d", [("confidentiality", "Low")], .flush, 3⟩ ⟨storeD, []⟩
      ciaProjection ⟨[("d", ⟨"t", 1, 0, 0⟩)], []⟩).1 rfl rfl,
   (runProjections_trigger_dirty_semantics
      ⟨"d", [("confidentiality", "Low")], .compact, 3⟩ ⟨storeD, []⟩
      ciaProjection ⟨[("d", ⟨"t", 1, 0, 0⟩)], []⟩).2.1 (Or.inl rfl)
      (by decide) rfl rfl,
   (runProjections_trigger_dirty_semantics
      ⟨"d", [("confidentiality", "Low")], .flush, 3⟩ ⟨storeD, ["cia"]⟩
      ciaProjection ⟨[("d", ⟨"t", 1, 0, 0⟩)], []⟩).2.2 (by decide)
      (fun _ => by decide) rfl rfl (by decide)⟩

theorem registerAll_nodup_aux (ps acc : List Projection)
    (h : (acc.map (·.name)).Nodup) :
    ((ps.foldl register acc).map (·.name)).Nodup := by
  induction ps generalizing acc with
  | nil => exact h
  | cons p ps ih =>
    refine ih (register acc p) ?_
    unfold register
    by_cases hany : (acc.any fun q => q.name == p.name) = true
    · rw [if_pos hany]; exact h
    · rw [if_neg hany]
      rw [List.map_append, List.nodup_append]
      refine ⟨h, by simp, ?_⟩
      intro a ha hb
      simp only [List.map_cons, List.map_nil, List.mem_singleton] at hb
      subst hb
      obtain ⟨q, hq, hqname⟩ := List.mem_map.mp ha
      apply hany
      rw [List.any_eq_true]
      exact ⟨q, hq, by simp [hqname]⟩

/-- C10.  Registering a projection whose name is already registered is a
no-op, therefore starting from the empty manager any sequence of
registrations yields a list with pairwise-distinct projection names, and
since `runProjections` folds once over that list, each projection name is
run at most once per trigger (at most one list entry carries it). -/
theorem register_duplicate_noop_and_nodup (ps : List Projection) :
    (∀ (qs : List Projection) (p : Projection),
        (qs.any fun q => q.name == p.name) = true → register qs p = qs) ∧
    ((registerAll ps).map (·.name)).Nodup ∧
    ∀ n : String, ((registerAll ps).countP fun p => p.name == n) ≤ 1 := by
  have hnodup : ((registerAll ps).map (·.name)).Nodup :=
    registerAll_nodup_aux ps [] (by simp)
  refine ⟨?_, hnodup, ?_⟩
  · intro qs p h
    unfold register
    rw [if_pos h]
  · intro n
    have h1 : ((registerAll ps).countP fun p => p.name == n)
        = List.count n ((registerAll ps).map (·.name)) := by
      rw [List.count, List.countP_map]
      rfl
    rw [h1]
    exact List.nodup_iff_count_le_one.mp hnodup n

/-- Witness for C10: registering the cia projection twice leaves the
single-entry list unchanged, its name list is duplicate-free, and the cia
name is counted at most once. -/
theorem register_duplicate_noop_and_nodup_witness :
    register [ciaProjection] ciaProjection = [ciaProjection] ∧
    ((registerAll [ciaProjection, ciaProjection]).map (·.name)).Nodup ∧
    ((registerAll [ciaProjection, ciaProjection]).countP
        fun p => p.name == "cia") ≤ 1 :=
  ⟨(register_duplicate_noop_and_nodup []).1 [ciaProjection] ciaProjection
      (by decide),
   (register_duplicate_noop_and_nodup [ciaProjection, ciaProjection]).2.1,
   (register_duplicate_noop_and_nodup [ciaProjection, ciaProjection]).2.2 "cia"⟩

/-- The version table after a sequence of creations starting from an empty
table, each creation inserting its row and then enforcing the retention
cap, exactly as `createVersion` and the auto-versioning path of the
Compactor do. -/
def createAll (vs : List VersionRow) : List VersionRow :=
  vs.foldl (fun acc r => enforceVersionLimit (acc ++ [r])) []

theorem enforceVersionLimit_eq_drop (rows : List VersionRow)
    (h : rows.Pairwise fun a b => a.id < b.id ∧ a.createdAt ≤ b.createdAt) :
    enforceVersionLimit rows = rows.drop (rows.length - MAX_VERSIONS) := by
  unfold enforceVersionLimit
  by_cases hlen : rows.length ≤ MAX_VERSIONS
  · rw [if_pos hlen, Nat.sub_eq_zero_of_le hlen, List.drop_zero]
  · rw [if_neg hlen]
    have hsorted : List.Sorted (fun a b : VersionRow => a.createdAt ≤ b.createdAt)
        rows := h.imp fun hab => hab.2
    rw [hsorted.insertionSort_eq]
    have hsplit : (rows.take (rows.length - MAX_VERSIONS)
        ++ rows.drop (rows.length - MAX_VERSIONS)).Pairwise
        (fun a b => a.id < b.id ∧ a.createdAt ≤ b.createdAt) := by
      rw [List.take_append_drop]; exact h
    have hstart : rows.filter
        (fun r => !(((rows.take (rows.length - MAX_VERSIONS)).map (·.id)).contains r.id))
        = (rows.take (rows.length - MAX_VERSIONS)
            ++ rows.drop (rows.length - MAX_VERSIONS)).filter
          (fun r => !(((rows.take (rows.length - MAX_VERSIONS)).map (·.id)).contains r.id)) := by
      rw [List.take_append_drop]
    rw [hstart, List.filter_append]
    have h1 : (rows.take (rows.length - MAX_VERSIONS)).filter
        (fun r => !(((rows.take (rows.length - MAX_VERSIONS)).map (·.id)).contains r.id))
        = [] := by
      rw [List.filter_eq_nil_iff]
      intro r hr
      have hmem : r.id ∈ (rows.map (·.id)).take (rows.length - MAX_VERSIONS) := by
        rw [← List.map_take]
        exact List.mem_map_of_mem _ hr
      simp [hmem]
    have h2 : (rows.drop (rows.length - MAX_VERSIONS)).filter
        (fun r => !(((rows.take (rows.length - MAX_VERSIONS)).map (·.id)).contains r.id))
        = rows.drop (rows.length - MAX_VERSIONS) := by
      rw [List.filter_eq_self]
      intro r hr
      have hnotin : r.id ∉ (rows.map (·.id)).take (rows.length - MAX_VERSIONS) := by
        intro hin
        rw [← List.map_take] at hin
        obtain ⟨q, hq, hqid⟩ := List.mem_map.mp hin
        have hlt : q.id < r.id :=
          ((List.pairwise_append.mp hsplit).2.2 q hq r hr).1
        rw [hqid] at hlt
        exact Nat.lt_irrefl _ hlt
      simp [hnotin]
    rw [h1, h2, List.nil_append]

theorem createAll_eq_drop (vs : List VersionRow) :
    vs.Pairwise (fun a b => a.id < b.id ∧ a.createdAt ≤ b.createdAt) →
    createAll vs = vs.drop (vs.length - MAX_VERSIONS) := by
  induction vs using List.reverseRecOn with
  | nil => intro _; rfl
  | append_singleton l a ih =>
    intro h
    have hl : l.Pairwise (fun a b => a.id < b.id ∧ a.createdAt ≤ b.createdAt) :=
      (List.pairwise_append.mp h).1
    have hstep : createAll (l ++ [a])
        = enforceVersionLimit (createAll l ++ [a]) := by
      unfold createAll
      rw [List.foldl_append]
      rfl
    rw [hstep, ih hl]
    have hsub : l.drop (l.length - MAX_VERSIONS) ++ [a]
        = (l ++ [a]).drop (l.length - MAX_VERSIONS) :=
      (List.drop_append_of_le_length (Nat.sub_le _ _)).symm
    rw [hsub]
    have hgood : ((l ++ [a]).drop (l.length - MAX_VERSIONS)).Pairwise
        (fun a b => a.id < b.id ∧ a.createdAt ≤ b.createdAt) :=
      h.sublist (List.drop_sublist _ _)
    rw [enforceVersionLimit_eq_drop _ hgood]
    rw [List.drop_drop]
    congr 1
    simp only [List.length_drop, List.length_append, List.length_cons,
      List.length_nil]
    unfold MAX_VERSIONS
    omega

/-- C6.  Creating version-snapshot rows (strictly increasing autoincrement
ids, non-decreasing creation timestamps) with the retention cap enforced
after every insertion — the shared behaviour of `createVersion` and the
auto-versioning path — keeps exactly the most recent `MAX_VERSIONS` rows:
the resulting table is the creation sequence with its oldest prefix
dropped, and once the cap has been reached it holds exactly 50 rows; and
each successful `createVersion` is precisely insert-then-enforce. -/
theorem enforceVersionLimit_retention_cap (vs : List VersionRow)
    (h : vs.Pairwise fun a b => a.id < b.id ∧ a.createdAt ≤ b.createdAt) :
    createAll vs = vs.drop (vs.length - MAX_VERSIONS) ∧
    (MAX_VERSIONS ≤ vs.length → (createAll vs).length = MAX_VERSIONS) ∧
    ∀ (rows : List VersionRow) (nextId now : Nat) (snap : Bytes),
      createVersion true rows nextId now snap none
        = some (enforceVersionLimit
            (rows ++ [⟨nextId, snap, none, now⟩]), nextId + 1) := by
  have h1 := createAll_eq_drop vs h
  refine ⟨h1, fun hle => ?_, fun rows nextId now snap => rfl⟩
  rw [h1, List.length_drop]
  unfold MAX_VERSIONS at *
  omega

/-- Fifty-two version rows with increasing ids and timestamps, for the C6
witness. -/
def versionRowsW : List VersionRow :=
  (List.range 52).map fun i => ⟨i + 1, ∅, none, i⟩

/-- Witness for C6 at a concrete table of 52 creations: the first two
(oldest) rows are pruned and exactly 50 remain. -/
theorem enforceVersionLimit_retention_cap_witness :
    createAll versionRowsW
      = versionRowsW.drop (versionRowsW.length - MAX_VERSIONS) ∧
    (createAll versionRowsW).length = MAX_VERSIONS ∧
    createVersion true [] 1 0 ∅ none
      = some (enforceVersionLimit [⟨1, ∅, none, 0⟩], 2) :=
  ⟨(enforceVersionLimit_retention_cap versionRowsW (by decide)).1,
   (enforceVersionLimit_retention_cap versionRowsW (by decide)).2.1 (by decide),
   by
    have h := (enforceVersionLimit_retention_cap versionRowsW (by decide)).2.2
      [] 1 0 ∅
    simpa using h⟩

/-- Modelled from the wording of the specification for comparison only:
the apply the claim describes, with genuine upsert semantics — when the
document row is missing it is inserted with the three mapped levels
instead of failing. -/
def ciaApplyUpsertSpec (store : Store) (ctx : ProjectionContext) : Store :=
  if store.documents.any fun kv => kv.1 == ctx.docId then
    { store with documents := store.documents.map fun kv =>
        if kv.1 == ctx.docId then
          (kv.1, { kv.2 with
                   confidentiality := parseCiaLevel (ciaGet ctx.ciaMap "confidentiality")
                   integrity := parseCiaLevel (ciaGet ctx.ciaMap "integrity")
                   availability := parseCiaLevel (ciaGet ctx.ciaMap "availability") })
        else kv }
  else
    { store with documents := store.documents ++
        [(ctx.docId, ⟨"", parseCiaLevel (ciaGet ctx.ciaMap "confidentiality"),
          parseCiaLevel (ciaGet ctx.ciaMap "integrity"),
          parseCiaLevel (ciaGet ctx.ciaMap "availability")⟩)] }

/-- C7 counterexample.  On a store whose `documents` table has no row for
the document id, the apply of the CIA projection — a Prisma `update`, not
an upsert — fails with a record-not-found error and writes nothing, while
the upsert the claim describes would write the row with the mapped
integers; so the claim as stated is false at this input. -/
theorem ciaApply_missing_row_not_upsert :
    ciaApply { documents := [], projectionStates := [] }
        ⟨"d", [("confidentiality", "Low")], .flush, 0⟩
      = .error "Record to update not found" ∧
    (ciaApply { documents := [], projectionStates := [] }
        ⟨"d", [("confidentiality", "Low")], .flush, 0⟩).toOption = none ∧
    ciaApplyUpsertSpec { documents := [], projectionStates := [] }
        ⟨"d", [("confidentiality", "Low")], .flush, 0⟩
      = { documents := [("d", ⟨"", 1, 0, 0⟩)], projectionStates := [] } := by
  exact ⟨rfl, rfl, rfl⟩

/-- C7 as amended.  The level mapping sends Low, Medium, High, Critical to
1, 2, 3, 3 (the top two labels collapse) and every other value, including
an absent one, to 0; and when a `documents` row exists for the document
id, the apply of the CIA projection succeeds, leaves the projection-state
table alone and updates that row so its three sidecar columns hold exactly
the three parsed integers (it updates the existing row rather than
upserting: the missing-row case fails, see the counterexample). -/
theorem parseCiaLevel_mapping_and_update (store : Store)
    (ctx : ProjectionContext)
    (hmem : (store.documents.any fun kv => kv.1 == ctx.docId) = true) :
    parseCiaLevel (some "Low") = 1 ∧
    parseCiaLevel (some "Medium") = 2 ∧
    parseCiaLevel (some "High") = 3 ∧
    parseCiaLevel (some "Critical") = 3 ∧
    parseCiaLevel none = 0 ∧
    (∀ v : String, v ≠ "Low" → v ≠ "Medium" → v ≠ "High" → v ≠ "Critical" →
       parseCiaLevel (some v) = 0) ∧
    ∃ st', ciaApply store ctx = .ok st' ∧
      st'.projectionStates = store.projectionStates ∧
      ∀ kv ∈ st'.documents, kv.1 = ctx.docId →
        kv.2.confidentiality = parseCiaLevel (ciaGet ctx.ciaMap "confidentiality") ∧
        kv.2.integrity = parseCiaLevel (ciaGet ctx.ciaMap "integrity") ∧
        kv.2.availability = parseCiaLevel (ciaGet ctx.ciaMap "availability") := by
  refine ⟨rfl, rfl, rfl, rfl, rfl, ?_, ?_⟩
  · intro v h1 h2 h3 h4
    unfold parseCiaLevel
    split <;> simp_all
  · unfold ciaApply
    rw [if_pos hmem]
    refine ⟨_, rfl, rfl, ?_⟩
    intro kv hkv hid
    obtain ⟨kv0, hkv0, rfl⟩ := List.mem_map.mp hkv
    by_cases hb : (kv0.1 == ctx.docId) = true
    · rw [if_pos hb]
      exact ⟨rfl, rfl, rfl⟩
    · rw [if_neg hb] at hid
      exact absurd (by simp [hid] : (kv0.1 == ctx.docId) = true) hb

/-- Witness for C7 as amended, at a concrete store holding the document
row and a cia map assigning Low, Medium, High. -/
theorem parseCiaLevel_mapping_and_update_witness :
    parseCiaLevel (some "Low") = 1 ∧
    parseCiaLevel (some "Medium") = 2 ∧
    parseCiaLevel (some "High") = 3 ∧
    parseCiaLevel (some "Critical") = 3 ∧
    parseCiaLevel none = 0 ∧
    parseCiaLevel (some "Unknown") = 0 ∧
    ∃ st', ciaApply storeD
        ⟨"d", [("confidentiality", "Low"), ("integrity", "Medium"),
               ("availability", "High")], .flush, 0⟩ = .ok st' :=
  have h := parseCiaLevel_mapping_and_update storeD
    ⟨"d", [("confidentiality", "Low"), ("integrity", "Medium"),
           ("availability", "High")], .flush, 0⟩ (by decide)
  ⟨h.1, h.2.1, h.2.2.1, h.2.2.2.1, h.2.2.2.2.1,
   h.2.2.2.2.2.1 "Unknown" (by decide) (by decide) (by decide) (by decide),
   have h2 := h.2.2.2.2.2.2
   Exists.elim h2 fun st' hst => ⟨st', hst.1⟩⟩

end YjsRealtime
